import Mathlib

/-!
# AsciidocCite: the bibliography formatter, the marker extractor and the driver

A shallow embedding of `citations.go`.  Go `string` and `[]byte` values are
modelled by `String` (the input document is UTF-8 text, for which the bytewise
order of Go coincides with the code-point order used here); the
`strings.Builder` of the formatter is modelled by explicit state passing; a
run-time panic is modelled by `none`.
-/

namespace AsciidocCite

/-! ## Data model -/

/-- AuthorType holds family and given name. -/
structure AuthorType where
  Family : String
  Given : String
  deriving DecidableEq, Repr

/-- An element of a date-part group: a Go `interface{}` holding what
`encoding/json` decodes a JSON scalar into (`nil`, `bool`, `float64` or
`string`).  A JSON number decodes to a `float64`; the model carries the
integral ones, `number n` being the `float64` of value `n`.  Nested arrays and
objects are outside the data model, whose date parts are scalars. -/
inductive Scalar where
  | null
  | bool (b : Bool)
  | number (n : Int)
  | str (s : String)
  deriving DecidableEq, Repr

/-- IssuedType holds the date. -/
structure IssuedType where
  DateParts : List (List Scalar)
  deriving DecidableEq, Repr

/-- ResultType holds the real reply. -/
structure ResultType where
  Page : String
  Title : String
  ContainerTitle : String
  Author : List AuthorType
  Issued : IssuedType
  DOI : String
  deriving DecidableEq, Repr

/-- ZoteroReply is the parsed JSON stream.  `Result` is a Go slice: `none` is
the nil slice a missing or `null` field decodes to. -/
structure ZoteroReply where
  Jsonrpc : String
  Result : Option (List ResultType)
  deriving DecidableEq, Repr

/-! ## The parts of package `fmt` the program uses -/

/-- Go `len` of a string: its number of bytes. -/
def len (s : String) : Nat := s.utf8ByteSize

/-- Drops the zeros at the end of a digit list. -/
def stripZeros (ds : List Char) : List Char :=
  (ds.reverse.dropWhile (fun c => c == '0')).reverse

/-- Exponent of `%e`: a sign and at least two digits. -/
def fmtExp (e : Nat) : String :=
  if e < 10 then "e+0" ++ Nat.repr e else "e+" ++ Nat.repr e

/-- Verb `%v` on a `float64` of integral value `n` (`strconv` format `g` with
the shortest precision): plain decimal below `10^6` in magnitude, otherwise
the `%e` form with the shortest mantissa. -/
def fmtFloatV (n : Int) : String :=
  let sign := if n < 0 then "-" else ""
  let ds := Nat.toDigits 10 n.natAbs
  if ds.length ≤ 6 then sign ++ String.mk ds
  else
    let frac := stripZeros ds.tail
    let mant := if frac.isEmpty then String.mk (ds.take 1)
      else String.mk (ds.take 1) ++ "." ++ String.mk frac
    sign ++ mant ++ fmtExp (ds.length - 1)

/-- Verb `%s` applied to an `interface{}` operand.  A string is written
verbatim; every other dynamic type is a bad operand for `%s`, for which `fmt`
writes `%!s(` type `=` value under `%v` `)`, and `%!s(<nil>)` for `nil`. -/
def fmtS : Scalar → String
  | .str s => s
  | .number n => "%!s(float64=" ++ fmtFloatV n ++ ")"
  | .bool b => "%!s(bool=" ++ (if b then "true" else "false") ++ ")"
  | .null => "%!s(<nil>)"

/-! ## Entry formatter -/

/-- The loop `for i, author := range result.Author` of the formatter, started
at index `i` on the authors still to visit, writing to the builder `b`. -/
def authorLoop (n : Nat) : Nat → List AuthorType → String → String
  | _, [], b => b
  | i, author :: rest, b =>
    let b := b ++ (author.Given ++ " " ++ author.Family)
    let b := if (i : Int) < (n : Int) - 1 then b ++ " and " else b ++ ". "
    authorLoop n (i + 1) rest b

/-- What the author loop writes for `authors` to the builder `b`. -/
def writeAuthors (authors : List AuthorType) (b : String) : String :=
  authorLoop authors.length 0 authors b

/-- The function `buildAsciidocBibligraphyItem`: the builder is threaded
through the writes in source order; `none` is the index-out-of-range panic of
`result.Issued.DateParts[0][0]`. -/
def buildAsciidocBibligraphyItem (citekey : String) (index : Int)
    (result : ResultType) : Option String :=
  let _ := index
  let b := ""
  -- Initial part of bibliography line
  let b := b ++ ("- [[[" ++ citekey ++ ", " ++ citekey ++ "]]] ")
  -- Add the authors
  let b := writeAuthors result.Author b
  -- Add the title
  let b := b ++ ("\"" ++ result.Title ++ "\"")
  -- Add the date issued
  match result.Issued.DateParts with
  | [] => none
  | [] :: _ => none
  | (year :: _) :: _ =>
    let b := b ++ (" (" ++ fmtS year ++ ").")
    -- Add the container title
    let b := if len result.ContainerTitle > 0 then
      b ++ (" " ++ result.ContainerTitle ++ ".") else b
    -- Add the DOI
    let b := if len result.DOI > 0 then b ++ (" DOI: " ++ result.DOI ++ ".") else b
    some b

/-! ## Marker extractor -/

/-- The pieces of the pattern: a literal character, and `.+?` (one or more
characters other than a line feed, as few as possible). -/
inductive Atom where
  | lit (c : Char)
  | anyPlusLazy
  deriving DecidableEq, Repr

/-- The compiled pattern `<<.+?>>`. -/
def re : List Atom :=
  [.lit '<', .lit '<', .anyPlusLazy, .lit '>', .lit '>']

/-- The piece `.+?` followed by the continuation `k`: one character that is
not a line feed is consumed, then the rest of the pattern is preferred over
consuming one more character.  The result is the length matched. -/
def lazyPlus (k : List Char → Option Nat) : List Char → Option Nat
  | [] => none
  | x :: xs =>
    if x = '\n' then none
    else
      match k xs with
      | some n => some (n + 1)
      | none => (lazyPlus k xs).map (· + 1)

/-- Leftmost-first match of a pattern at the start of the input: the length
of the match a backtracking search finds first, if any. -/
def matchAt : List Atom → List Char → Option Nat
  | [], _ => some 0
  | .lit c :: p, input =>
    match input with
    | [] => none
    | x :: xs => if x = c then (matchAt p xs).map (· + 1) else none
  | .anyPlusLazy :: p, input => lazyPlus (matchAt p) input

/-- The scan of `FindAll(b, -1)`: at each position not covered by the
previous match (`skip` characters of it remain) the pattern is tried; a match
is recorded and the scan resumes at its end.  No match of the pattern of this
program is empty. -/
def findAllFrom (p : List Atom) : Nat → List Char → List (List Char)
  | _, [] => []
  | skip + 1, _ :: xs => findAllFrom p skip xs
  | 0, x :: xs =>
    match matchAt p (x :: xs) with
    | some n => (x :: xs).take n :: findAllFrom p (n - 1) xs
    | none => findAllFrom p 0 xs

/-- The call `re.FindAll([]byte(content), -1)`: all successive non-overlapping
matches, in document order. -/
def FindAll (p : List Atom) (content : String) : List String :=
  (findAllFrom p 0 content.data).map String.mk

/-- The comparison `string(citekeys[i]) < string(citekeys[j])`. -/
def less (a b : String) : Bool := decide (a.data < b.data)

/-- Insertion of `a` before the first element that is not less than it. -/
def insertSorted (a : String) : List String → List String
  | [] => [a]
  | b :: l => if less b a then b :: insertSorted a l else a :: b :: l

/-- The call `sort.Slice(citekeys, less)`.  The comparison is a strict total
order on the values, so the sorted arrangement is unique whatever algorithm
computes it; insertion sort computes it here. -/
def sortSlice : List String → List String
  | [] => []
  | a :: l => insertSorted a (sortSlice l)

/-- Removal of the leading characters contained in the cutset. -/
def trimLeft (cutset : List Char) (s : List Char) : List Char :=
  s.dropWhile (fun c => decide (c ∈ cutset))

/-- Removal of the trailing characters contained in the cutset. -/
def trimRight (cutset : List Char) (s : List Char) : List Char :=
  (s.reverse.dropWhile (fun c => decide (c ∈ cutset))).reverse

/-- The function `strings.Trim(s, cutset)`: `s` with all leading and trailing
characters contained in `cutset` removed. -/
def Trim (s cutset : String) : String :=
  String.mk (trimLeft cutset.data (trimRight cutset.data s.data))

/-! ## Metadata resolver -/

/-- How a call ends: it returns a value, it returns an error, or it ends the
process (`log.Fatal`). -/
inductive Outcome (α : Type) where
  | ok (a : α)
  | error (err : String)
  | fatal (msg : String)
  deriving DecidableEq, Repr

/-- The collaborators of the resolver: the HTTP round trip (`httpClient.Do`
on the request body), the reading of the response body and the JSON decoder,
each of which may return an error. -/
structure Service where
  Do : String → Except String String
  ReadAll : String → Except String String
  Unmarshal : String → Except String ZoteroReply

/-- The request message to the Zotero local server:
`fmt.Sprintf(unformattedRequest, citekey)`. -/
def formattedRequest (citekey : String) : String :=
  "\x7b\"jsonrpc\": \"2.0\", \"method\": \"item.search\", \"params\": [\"" ++ citekey ++ "\"] \x7d"

/-- The end of `getBibliographyFromCitekey`, from the decoded reply on. -/
def firstResult (reply : ZoteroReply) : Outcome ResultType :=
  match reply.Result with
  | none => .fatal "There were no results to the query"
  | some [] => .fatal "There were no results to the query"
  | some (r :: _) => .ok r

/-- The function `getBibliographyFromCitekey`.  The call `http.NewRequest`
with the constant method and address of the program returns no error, so the
first error that can be returned is that of the round trip. -/
def getBibliographyFromCitekey (svc : Service) (citekey : String) :
    Outcome ResultType :=
  let requestMessage := formattedRequest citekey
  match svc.Do requestMessage with
  | .error err => .error err
  | .ok resp =>
    match svc.ReadAll resp with
    | .error err => .error err
    | .ok responseBody =>
      match svc.Unmarshal responseBody with
      | .error err => .error err
      | .ok reply => firstResult reply

/-! ## Driver -/

/-- How a run ends. -/
inductive Exit where
  | completed
  | fatal (msg : String)
  | panic
  deriving DecidableEq, Repr

/-- What a run does that can be observed: the text written to standard output,
the keys passed to the resolver in call order, and how the run ended. -/
structure Run where
  stdout : String
  calls : List String
  exit : Exit
  deriving DecidableEq, Repr

/-- The loop `for i, citekey := range citekeys` of `main`, started at index
`i` on the matches still to visit, with `out` written and `calls` made so
far. -/
def mainLoop (resolve : String → Outcome ResultType) :
    Nat → List String → String → List String → Run
  | _, [], out, calls => ⟨out, calls, .completed⟩
  | i, citekey :: rest, out, calls =>
    let c := Trim citekey "<>"
    match resolve c with
    | .error err => ⟨out, calls ++ [c], .fatal err⟩
    | .fatal msg => ⟨out, calls ++ [c], .fatal msg⟩
    | .ok r =>
      match buildAsciidocBibligraphyItem c i r with
      | none => ⟨out, calls ++ [c], .panic⟩
      | some s => mainLoop resolve (i + 1) rest (out ++ (s ++ "\n\n")) (calls ++ [c])

/-- The matches the loop of `main` iterates over: found, then sorted. -/
def citekeys (content : String) : List String :=
  sortSlice (FindAll re content)

/-- The function `main`, given the outcome of reading `README.asc` and the
resolver. -/
def main (file : Except String String) (resolve : String → Outcome ResultType) : Run :=
  match file with
  | .error err => ⟨"", [], .fatal err⟩
  | .ok content => mainLoop resolve 0 (citekeys content) "" []

/-! ## JSON texts (RFC 8259), to state what a request body denotes -/

/-- A JSON value; a number keeps its text. -/
inductive JSON where
  | null
  | bool (b : Bool)
  | number (text : String)
  | string (s : String)
  | array (elems : List JSON)
  | object (members : List (String × JSON))
  deriving Repr

/-- Insignificant whitespace before a token is dropped. -/
def skipWs (s : List Char) : List Char :=
  s.dropWhile (fun c => c == ' ' || c == '\t' || c == '\n' || c == '\r')

/-- Value of a hexadecimal digit. -/
def hexVal (c : Char) : Option Nat :=
  if '0' ≤ c ∧ c ≤ '9' then some (c.toNat - '0'.toNat)
  else if 'a' ≤ c ∧ c ≤ 'f' then some (c.toNat - 'a'.toNat + 10)
  else if 'A' ≤ c ∧ c ≤ 'F' then some (c.toNat - 'A'.toNat + 10)
  else none

/-- The character a `\uXXXX` escape denotes. -/
def hex4 (a b c d : Char) : Option Char := do
  let a ← hexVal a
  let b ← hexVal b
  let c ← hexVal c
  let d ← hexVal d
  pure (Char.ofNat (((a * 16 + b) * 16 + c) * 16 + d))

/-- The rest of a string literal after its opening quote: the characters
decoded so far are in `acc` (most recent first); the result is the decoded
string and the input after the closing quote. -/
def parseStringBody : List Char → List Char → Option (String × List Char)
  | [], _ => none
  | '"' :: rest, acc => some (String.mk acc.reverse, rest)
  | '\\' :: 'u' :: a :: b :: c :: d :: rest, acc =>
    match hex4 a b c d with
    | some u => parseStringBody rest (u :: acc)
    | none => none
  | '\\' :: e :: rest, acc =>
    if e = '"' then parseStringBody rest ('"' :: acc)
    else if e = '\\' then parseStringBody rest ('\\' :: acc)
    else if e = '/' then parseStringBody rest ('/' :: acc)
    else if e = 'b' then parseStringBody rest (Char.ofNat 8 :: acc)
    else if e = 'f' then parseStringBody rest (Char.ofNat 12 :: acc)
    else if e = 'n' then parseStringBody rest ('\n' :: acc)
    else if e = 'r' then parseStringBody rest ('\r' :: acc)
    else if e = 't' then parseStringBody rest ('\t' :: acc)
    else none
  | c :: rest, acc =>
    if c = '\\' ∨ c.toNat < 32 then none else parseStringBody rest (c :: acc)

/-- Splits off the leading decimal digits. -/
def spanDigits (s : List Char) : List Char × List Char :=
  s.span Char.isDigit

/-- A number token: optional minus, integer part without a superfluous leading
zero, optional fraction, optional exponent. -/
def parseNumber (s : List Char) : Option (JSON × List Char) :=
  let (sign, s) := match s with
    | '-' :: r => (['-'], r)
    | r => ([], r)
  let (int, s) := spanDigits s
  if int = [] ∨ (int.head? = some '0' ∧ int.length ≠ 1) then none
  else
    let frac? : Option (List Char × List Char) := match s with
      | '.' :: r =>
        let (f, r) := spanDigits r
        if f = [] then none else some ('.' :: f, r)
      | r => some ([], r)
    match frac? with
    | none => none
    | some (frac, s) =>
      let exp? : Option (List Char × List Char) := match s with
        | e :: r =>
          if e = 'e' ∨ e = 'E' then
            let (sg, r) := match r with
              | '+' :: r => (['+'], r)
              | '-' :: r => (['-'], r)
              | r => ([], r)
            let (ds, r) := spanDigits r
            if ds = [] then none else some (e :: sg ++ ds, r)
          else some ([], e :: r)
        | [] => some ([], [])
      match exp? with
      | none => none
      | some (exp, s) => some (.number (String.mk (sign ++ int ++ frac ++ exp)), s)

/-- What the parser is reading: a value, the elements of an array after an
element has been announced, or the members of an object likewise. -/
inductive Goal where
  | value
  | elements (acc : List JSON)
  | members (acc : List (String × JSON))

/-- Recursive-descent parser; `fuel` bounds the number of nested calls. -/
def parseGoal : Nat → Goal → List Char → Option (JSON × List Char)
  | 0, _, _ => none
  | fuel + 1, .value, input =>
    match skipWs input with
    | '"' :: rest =>
      match parseStringBody rest [] with
      | some (s, r) => some (.string s, r)
      | none => none
    | '[' :: rest =>
      match skipWs rest with
      | ']' :: r => some (.array [], r)
      | r => parseGoal fuel (.elements []) r
    | '\x7b' :: rest =>
      match skipWs rest with
      | '\x7d' :: r => some (.object [], r)
      | r => parseGoal fuel (.members []) r
    | 't' :: 'r' :: 'u' :: 'e' :: r => some (.bool true, r)
    | 'f' :: 'a' :: 'l' :: 's' :: 'e' :: r => some (.bool false, r)
    | 'n' :: 'u' :: 'l' :: 'l' :: r => some (.null, r)
    | other => parseNumber other
  | fuel + 1, .elements acc, input =>
    match parseGoal fuel .value input with
    | none => none
    | some (v, r) =>
      match skipWs r with
      | ',' :: r => parseGoal fuel (.elements (v :: acc)) r
      | ']' :: r => some (.array (v :: acc).reverse, r)
      | _ => none
  | fuel + 1, .members acc, input =>
    match skipWs input with
    | '"' :: rest =>
      match parseStringBody rest [] with
      | none => none
      | some (k, r) =>
        match skipWs r with
        | ':' :: r =>
          match parseGoal fuel .value r with
          | none => none
          | some (v, r) =>
            match skipWs r with
            | ',' :: r => parseGoal fuel (.members ((k, v) :: acc)) r
            | '\x7d' :: r => some (.object ((k, v) :: acc).reverse, r)
            | _ => none
        | _ => none
    | _ => none

/-- The value a text denotes with the given fuel, when the text is one JSON
value surrounded by whitespace only. -/
def parseWith (fuel : Nat) (text : String) : Option JSON :=
  match parseGoal fuel .value text.data with
  | some (v, rest) => if skipWs rest = [] then some v else none
  | none => none

/-- The value a JSON text denotes; twice its length and two more bounds the
calls of the parser on it. -/
def parseJSON (text : String) : Option JSON :=
  parseWith (2 * text.length + 2) text

/-! ## The specification's wording, to compare the code with -/

/-- An author as the specification renders it: given name, a space, family
name. -/
def authorName (a : AuthorType) : String := a.Given ++ " " ++ a.Family

/-- The author segment in the specification's words: nothing for no author,
otherwise the authors joined by `" and "`, followed by `". "`. -/
def authorSegment (authors : List AuthorType) : String :=
  match authors with
  | [] => ""
  | _ :: _ => " and ".intercalate (authors.map authorName) ++ ". "

/-- A match without its first two and its last two characters. -/
def stripDelimiters (m : String) : String :=
  String.mk ((m.data.drop 2).reverse.drop 2).reverse

/-- The keys the driver derives, in the order it visits them. -/
def keysOf (content : String) : List String :=
  (citekeys content).map (fun m => Trim m "<>")

/-- The entry of a key under a resolver: the formatted record when the key
resolves and the record formats, nothing otherwise. -/
def entryOf (resolve : String → Outcome ResultType) (k : String) : Option String :=
  match resolve k with
  | .ok r => buildAsciidocBibligraphyItem k 0 r
  | _ => none

/-- The request the specification describes for the key `k`. -/
def requestFor (k : String) : JSON :=
  .object [("jsonrpc", .string "2.0"), ("method", .string "item.search"),
    ("params", .array [.string k])]

/-- A marker of `n` characters starts the text `s`: `<<`, then one or more
characters all of which are allowed by `ok`, then `>>`. -/
def MarkerAt (ok : Char → Prop) (s : List Char) (n : Nat) : Prop :=
  ∃ inner rest, inner ≠ [] ∧ (∀ c ∈ inner, ok c) ∧
    s = '<' :: '<' :: (inner ++ '>' :: '>' :: rest) ∧ n = inner.length + 4

/-- The leftmost, non-overlapping, shortest markers of a text, scanning left
to right: where no marker starts the scan moves on by one character; where
one starts, the shortest is taken and the scan resumes after it. -/
inductive Markers (ok : Char → Prop) : List Char → List (List Char) → Prop where
  | done : Markers ok [] []
  | skip (x : Char) (xs : List Char) (ms : List (List Char)) :
      (∀ n, ¬ MarkerAt ok (x :: xs) n) → Markers ok xs ms → Markers ok (x :: xs) ms
  | found (s : List Char) (n : Nat) (ms : List (List Char)) :
      MarkerAt ok s n → (∀ k, k < n → ¬ MarkerAt ok s k) →
      Markers ok (s.drop n) ms → Markers ok s (s.take n :: ms)

/-- The characters the pattern of the program allows between the delimiters:
all but the line feed. -/
def notLineFeed (c : Char) : Prop := c ≠ '\n'

/-- The characters the specification allows between the delimiters: all. -/
def anyChar (_ : Char) : Prop := True

end AsciidocCite

namespace AsciidocCite

/-! ## Lemmas on strings -/

theorem utf8ByteSize_go_eq_zero (cs : List Char) :
    String.utf8ByteSize.go cs = 0 ↔ cs = [] := by
  cases cs with
  | nil => simp [String.utf8ByteSize.go]
  | cons c cs =>
    have := Char.utf8Size_pos c
    simp [String.utf8ByteSize.go]
    omega

theorem len_pos_iff (s : String) : len s > 0 ↔ s ≠ "" := by
  obtain ⟨cs⟩ := s
  have h := utf8ByteSize_go_eq_zero cs
  have e : (String.mk cs = "") ↔ cs = [] := by
    constructor
    · intro h; exact congrArg String.data h
    · intro h; rw [h]
  rw [Ne, e, ← h]
  show String.utf8ByteSize.go cs > 0 ↔ _
  omega

theorem intercalate_go_append (a x s : String) (l : List String) :
    String.intercalate.go (a ++ x) s l = a ++ String.intercalate.go x s l := by
  induction l generalizing x with
  | nil => rfl
  | cons b l ih =>
    simp only [String.intercalate.go]
    rw [String.append_assoc, String.append_assoc, ih, String.append_assoc]

theorem intercalate_cons_cons (s a b : String) (l : List String) :
    s.intercalate (a :: b :: l) = a ++ (s ++ s.intercalate (b :: l)) := by
  simp only [String.intercalate, String.intercalate.go]
  rw [String.append_assoc, intercalate_go_append, intercalate_go_append]

/-! ## Lemmas on the formatter -/

/-- What the author loop writes for the authors still to visit, when at least
one author precedes the end of the list. -/
theorem authorLoop_eq (n : Nat) (rest : List AuthorType) (i : Nat) (b : String)
    (h : i + rest.length = n) (hne : rest ≠ []) :
    authorLoop n i rest b = b ++ (" and ".intercalate (rest.map authorName) ++ ". ") := by
  induction rest generalizing i b with
  | nil => exact absurd rfl hne
  | cons a rest ih =>
    cases rest with
    | nil =>
      have hi : ¬ ((i : Int) < (n : Int) - 1) := by
        simp at h; omega
      simp only [authorLoop, hi, if_false, List.map, String.intercalate,
        String.intercalate.go, authorName]
      rw [String.append_assoc]
    | cons a2 rest =>
      have hi : (i : Int) < (n : Int) - 1 := by
        simp at h; omega
      have h2 : i + 1 + (a2 :: rest).length = n := by
        simp at h ⊢; omega
      rw [authorLoop]
      simp only [hi, if_true]
      rw [ih (i + 1) _ h2 (by simp)]
      simp only [List.map_cons]
      rw [intercalate_cons_cons " and " (authorName a)]
      simp only [authorName, String.append_assoc]

theorem writeAuthors_eq (authors : List AuthorType) (b : String) :
    writeAuthors authors b = b ++ authorSegment authors := by
  cases authors with
  | nil => simp [writeAuthors, authorLoop, authorSegment]
  | cons a rest =>
    rw [writeAuthors, authorLoop_eq _ (a :: rest) 0 b (by simp) (by simp)]
    rfl

theorem join_cons (a : String) (l : List String) :
    String.join (a :: l) = a ++ String.join l := by
  apply String.ext
  simp [String.data_join]

theorem intercalate_append_singleton (s a : String) (l : List String) :
    s.intercalate (l ++ [a]) = String.join (l.map (fun x => x ++ s)) ++ a := by
  induction l with
  | nil => simp [String.intercalate, String.intercalate.go, String.join]
  | cons b l ih =>
    cases l with
    | nil =>
      simp only [List.cons_append, List.nil_append, List.map]
      rw [intercalate_cons_cons, join_cons]
      simp [String.intercalate, String.intercalate.go, String.join, String.append_assoc]
    | cons c l =>
      simp only [List.cons_append, List.map] at ih ⊢
      rw [intercalate_cons_cons, ih, join_cons, join_cons]
      simp only [join_cons, String.append_assoc]

/-! ## Lemmas on the extractor -/

theorem less_iff (a b : String) : less a b = true ↔ a < b := by
  rw [String.lt_iff_toList_lt]
  simp [less, String.toList]

theorem insertSorted_perm (a : String) (l : List String) :
    (insertSorted a l).Perm (a :: l) := by
  induction l with
  | nil => exact List.Perm.refl _
  | cons b l ih =>
    simp only [insertSorted]
    split
    · exact ((List.Perm.cons b ih).trans (List.Perm.swap a b l))
    · exact List.Perm.refl _

theorem sortSlice_perm (l : List String) : (sortSlice l).Perm l := by
  induction l with
  | nil => exact List.Perm.refl _
  | cons a l ih =>
    exact (insertSorted_perm a (sortSlice l)).trans (List.Perm.cons a ih)

theorem insertSorted_sorted (a : String) (l : List String)
    (h : List.Sorted (· ≤ ·) l) : List.Sorted (· ≤ ·) (insertSorted a l) := by
  induction l with
  | nil => simp [insertSorted]
  | cons b l ih =>
    obtain ⟨hb, hl⟩ := List.sorted_cons.1 h
    simp only [insertSorted]
    split
    · rename_i hlt
      have hba : b < a := (less_iff b a).1 hlt
      refine List.sorted_cons.2 ⟨fun x hx => ?_, ih hl⟩
      rcases List.mem_cons.1 ((insertSorted_perm a l).mem_iff.1 hx) with rfl | hx
      · exact le_of_lt hba
      · exact hb x hx
    · rename_i hlt
      have hab : a ≤ b := not_lt.1 (fun hba => hlt ((less_iff b a).2 hba))
      refine List.sorted_cons.2 ⟨fun x hx => ?_, h⟩
      rcases List.mem_cons.1 hx with rfl | hx
      · exact hab
      · exact le_trans hab (hb x hx)

theorem sortSlice_sorted (l : List String) : List.Sorted (· ≤ ·) (sortSlice l) := by
  induction l with
  | nil => simp [sortSlice]
  | cons a l ih => exact insertSorted_sorted a _ ih

/-- The shape of a successful `.+?` step: a non-empty run without a line
feed, then what the continuation matched. -/
theorem lazyPlus_some (k : List Char → Option Nat) (s : List Char) (n : Nat)
    (h : lazyPlus k s = some n) :
    ∃ pre rest m, pre ≠ [] ∧ '\n' ∉ pre ∧ s = pre ++ rest ∧ k rest = some m ∧
      n = pre.length + m := by
  induction s generalizing n with
  | nil => simp [lazyPlus] at h
  | cons x xs ih =>
    rw [lazyPlus] at h
    split at h
    · cases h
    · rename_i hx
      split at h
      · rename_i m hk
        refine ⟨[x], xs, m, by simp, ?_, rfl, hk, ?_⟩
        · simpa using fun e => hx e.symm
        · simp at h ⊢; omega
      · rename_i hk
        rcases hl : lazyPlus k xs with _ | n2
        · simp [hl] at h
        · obtain ⟨pre, rest, m, hne, hnl, hs, hkr, hn⟩ := ih n2 hl
          refine ⟨x :: pre, rest, m, by simp, ?_, by simp [hs], hkr, ?_⟩
          · simp only [List.mem_cons, not_or]
            exact ⟨fun e => hx e.symm, hnl⟩
          · simp [hl] at h
            simp; omega

theorem matchAt_lit_some (c : Char) (p : List Atom) (s : List Char) (n : Nat)
    (h : matchAt (.lit c :: p) s = some n) :
    ∃ xs m, s = c :: xs ∧ matchAt p xs = some m ∧ n = m + 1 := by
  cases s with
  | nil => simp [matchAt] at h
  | cons x xs =>
    rw [matchAt] at h
    by_cases hx : x = c
    · rcases hm : matchAt p xs with _ | m
      · simp [hx, hm] at h
      · simp [hx, hm] at h
        exact ⟨xs, m, by rw [hx], hm, h.symm⟩
    · simp [hx] at h

/-- The shape of a match of the pattern of the program. -/
theorem matchAt_re_some (s : List Char) (n : Nat) (h : matchAt re s = some n) :
    ∃ inner rest, inner ≠ [] ∧ '\n' ∉ inner ∧
      s = '<' :: '<' :: (inner ++ '>' :: '>' :: rest) ∧ n = inner.length + 4 := by
  obtain ⟨s1, n1, rfl, h1, rfl⟩ := matchAt_lit_some _ _ _ _ h
  obtain ⟨s2, n2, rfl, h2, rfl⟩ := matchAt_lit_some _ _ _ _ h1
  rw [matchAt] at h2
  obtain ⟨inner, s3, n3, hne, hnl, rfl, h3, rfl⟩ := lazyPlus_some _ _ _ h2
  obtain ⟨s4, n4, rfl, h4, rfl⟩ := matchAt_lit_some _ _ _ _ h3
  obtain ⟨s5, n5, rfl, h5, rfl⟩ := matchAt_lit_some _ _ _ _ h4
  simp only [matchAt, Option.some.injEq] at h5
  subst h5
  exact ⟨inner, s5, hne, hnl, rfl, rfl⟩

theorem mem_findAllFrom (p : List Atom) (l : List Char) (skip : Nat) (m : List Char)
    (h : m ∈ findAllFrom p skip l) :
    ∃ s n, matchAt p s = some n ∧ m = s.take n := by
  induction l generalizing skip with
  | nil => simp [findAllFrom] at h
  | cons x xs ih =>
    cases skip with
    | succ k => exact ih k (by simpa [findAllFrom] using h)
    | zero =>
      rw [findAllFrom] at h
      split at h
      · rename_i n hm
        rcases List.mem_cons.1 h with rfl | h
        · exact ⟨_, n, hm, rfl⟩
        · exact ih _ h
      · exact ih _ h

/-- Every match the extractor finds is `<<`, a non-empty inner text, `>>`. -/
theorem mem_FindAll_re (content m : String) (h : m ∈ FindAll re content) :
    ∃ inner, inner ≠ [] ∧ m.data = '<' :: '<' :: (inner ++ ['>', '>']) := by
  obtain ⟨l, hl, rfl⟩ := List.mem_map.1 h
  obtain ⟨s, n, hs, rfl⟩ := mem_findAllFrom _ _ _ _ hl
  obtain ⟨inner, rest, hne, -, rfl, rfl⟩ := matchAt_re_some _ _ hs
  refine ⟨inner, hne, ?_⟩
  have : inner.length + 4 = (('<' :: '<' :: (inner ++ ['>', '>'])).length) := by simp
  show List.take (inner.length + 4) ('<' :: '<' :: (inner ++ '>' :: '>' :: rest)) = _
  rw [this]
  have e : '<' :: '<' :: (inner ++ '>' :: '>' :: rest) =
      ('<' :: '<' :: (inner ++ ['>', '>'])) ++ rest := by simp
  rw [e, List.take_left]

/-- Every match is a contiguous part of the text scanned. -/
theorem findAllFrom_contiguous (p : List Atom) (l : List Char) (skip : Nat) (m : List Char)
    (h : m ∈ findAllFrom p skip l) : m <:+: l := by
  induction l generalizing skip with
  | nil => simp [findAllFrom] at h
  | cons x xs ih =>
    cases skip with
    | succ k => exact List.infix_cons (ih k (by simpa [findAllFrom] using h))
    | zero =>
      rw [findAllFrom] at h
      split at h
      · rcases List.mem_cons.1 h with rfl | h
        · rename_i n _
          have hp : List.take n (x :: xs) <+: x :: xs := List.take_prefix _ _
          obtain ⟨t, ht⟩ := hp
          exact ⟨[], t, ht⟩
        · exact List.infix_cons (ih _ h)
      · exact List.infix_cons (ih _ h)

theorem matchAt_lit_cons (c : Char) (p : List Atom) (xs : List Char) :
    matchAt (.lit c :: p) (c :: xs) = (matchAt p xs).map (· + 1) := by
  simp [matchAt]

theorem matchAt_close (rest : List Char) :
    matchAt [.lit '>', .lit '>'] ('>' :: '>' :: rest) = some 2 := by
  simp [matchAt]

theorem matchAt_close_some (t : List Char) (m : Nat)
    (h : matchAt [.lit '>', .lit '>'] t = some m) : m = 2 := by
  obtain ⟨s4, n4, rfl, h4, rfl⟩ := matchAt_lit_some _ _ _ _ h
  obtain ⟨s5, n5, rfl, h5, rfl⟩ := matchAt_lit_some _ _ _ _ h4
  simp only [matchAt, Option.some.injEq] at h5
  omega

/-- The step `.+?` stops at the first place where the continuation matches. -/
theorem lazyPlus_le (k : List Char → Option Nat) (c : Nat)
    (hk : ∀ t m, k t = some m → m = c) (s : List Char) (n : Nat)
    (h : lazyPlus k s = some n) (pre rest : List Char) (m : Nat) (hne : pre ≠ [])
    (hs : s = pre ++ rest) (hm : k rest = some m) : n ≤ pre.length + c := by
  induction s generalizing n pre with
  | nil => simp [lazyPlus] at h
  | cons x xs ih =>
    rw [lazyPlus] at h
    split at h
    · cases h
    · split at h
      · rename_i m0 hk0
        have := hk _ _ hk0
        have hl : 0 < pre.length := List.length_pos.2 hne
        simp at h
        omega
      · rename_i hk0
        rcases hl : lazyPlus k xs with _ | n2
        · simp [hl] at h
        · simp [hl] at h
          rcases pre with _ | ⟨y, pre2⟩
          · exact absurd rfl hne
          · simp only [List.cons_append, List.cons.injEq] at hs
            rcases pre2 with _ | ⟨z, pre3⟩
            · simp only [List.nil_append] at hs
              rw [← hs.2] at hm
              rw [hm] at hk0
              cases hk0
            · have := ih n2 hl (z :: pre3) (by simp) hs.2
              simp only [List.length_cons] at this ⊢
              omega

/-- The step `.+?` fails only if the continuation fails after every run
without a line feed. -/
theorem lazyPlus_none (k : List Char → Option Nat) (s : List Char)
    (h : lazyPlus k s = none) (pre rest : List Char) (hne : pre ≠ [])
    (hnl : '\n' ∉ pre) (hs : s = pre ++ rest) : k rest = none := by
  induction s generalizing pre with
  | nil =>
    rcases pre with _ | ⟨y, pre2⟩
    · exact absurd rfl hne
    · simp at hs
  | cons x xs ih =>
    rcases pre with _ | ⟨y, pre2⟩
    · exact absurd rfl hne
    · simp only [List.cons_append, List.cons.injEq] at hs
      obtain ⟨rfl, hs⟩ := hs
      simp only [List.mem_cons, not_or] at hnl
      rw [lazyPlus] at h
      rw [if_neg (fun e => hnl.1 e.symm)] at h
      split at h
      · cases h
      · rename_i hk0
        rcases pre2 with _ | ⟨z, pre3⟩
        · simp only [List.nil_append] at hs
          rw [← hs]; exact hk0
        · have hl : lazyPlus k xs = none := by
            rcases hl : lazyPlus k xs with _ | n2
            · rfl
            · simp [hl] at h
          exact ih hl (z :: pre3) (by simp) hnl.2 hs

theorem matchAt_re_eq (s2 : List Char) :
    matchAt re ('<' :: '<' :: s2) =
      ((lazyPlus (matchAt [.lit '>', .lit '>']) s2).map (· + 1)).map (· + 1) := by
  rw [re, matchAt_lit_cons, matchAt_lit_cons, matchAt]

/-- A match of the pattern is a marker. -/
theorem matchAt_re_marker (s : List Char) (n : Nat) (h : matchAt re s = some n) :
    MarkerAt notLineFeed s n := by
  obtain ⟨inner, rest, hne, hnl, hs, hn⟩ := matchAt_re_some s n h
  exact ⟨inner, rest, hne, fun c hc e => hnl (e ▸ hc), hs, hn⟩

/-- A match of the pattern is the shortest marker at its place. -/
theorem matchAt_re_shortest (s : List Char) (n : Nat) (h : matchAt re s = some n)
    (k : Nat) (hk : MarkerAt notLineFeed s k) : n ≤ k := by
  obtain ⟨inner, rest, hne, -, rfl, rfl⟩ := hk
  rw [matchAt_re_eq] at h
  rcases hl : lazyPlus (matchAt [.lit '>', .lit '>']) (inner ++ '>' :: '>' :: rest) with _ | n2
  · simp [hl] at h
  · simp [hl] at h
    have := lazyPlus_le _ 2 matchAt_close_some _ n2 hl inner _ 2 hne rfl (matchAt_close rest)
    omega

/-- Where the pattern does not match, no marker starts. -/
theorem matchAt_re_none (s : List Char) (h : matchAt re s = none) (n : Nat) :
    ¬ MarkerAt notLineFeed s n := by
  rintro ⟨inner, rest, hne, hnl, rfl, rfl⟩
  rw [matchAt_re_eq] at h
  have hl : lazyPlus (matchAt [.lit '>', .lit '>']) (inner ++ '>' :: '>' :: rest) = none := by
    rcases hl : lazyPlus (matchAt [.lit '>', .lit '>']) (inner ++ '>' :: '>' :: rest) with _ | n2
    · rfl
    · simp [hl] at h
  have := lazyPlus_none _ _ hl inner _ hne (fun hc => hnl _ hc rfl) rfl
  rw [matchAt_close] at this
  cases this

theorem findAllFrom_skip (p : List Atom) (skip : Nat) (l : List Char) :
    findAllFrom p skip l = findAllFrom p 0 (l.drop skip) := by
  induction l generalizing skip with
  | nil => cases skip <;> simp [findAllFrom]
  | cons x xs ih =>
    cases skip with
    | zero => rfl
    | succ k => rw [findAllFrom, ih k, List.drop_succ_cons]

/-- The scan of the extractor yields the markers of the text. -/
theorem markers_findAllFrom_length (len : Nat) :
    ∀ l : List Char, l.length = len → Markers notLineFeed l (findAllFrom re 0 l) := by
  induction len using Nat.strong_induction_on with
  | _ len ih =>
    intro l hlen
    cases l with
    | nil => exact Markers.done
    | cons x xs =>
      rw [findAllFrom]
      split
      · rename_i n hm
        have hmk := matchAt_re_marker _ _ hm
        have hpos : 0 < n := by
          obtain ⟨inner, rest, -, -, -, hn⟩ := hmk
          omega
        have hd : findAllFrom re (n - 1) xs = findAllFrom re 0 ((x :: xs).drop n) := by
          rw [findAllFrom_skip]
          congr 1
          obtain ⟨k, rfl⟩ : ∃ k, n = k + 1 := ⟨n - 1, by omega⟩
          simp
        rw [hd]
        refine Markers.found _ n _ hmk (fun k hk hmk2 => ?_) ?_
        · have := matchAt_re_shortest _ _ hm k hmk2
          omega
        · refine ih ((x :: xs).drop n).length ?_ _ rfl
          rw [← hlen, List.length_drop]
          simp only [List.length_cons]
          omega
      · rename_i hm
        refine Markers.skip x xs _ (matchAt_re_none _ hm) ?_
        exact ih xs.length (by rw [← hlen]; simp) _ rfl

theorem markers_findAllFrom (l : List Char) :
    Markers notLineFeed l (findAllFrom re 0 l) :=
  markers_findAllFrom_length l.length l rfl

/-- The markers of a text are determined by the text. -/
theorem markers_unique (ok : Char → Prop) (s : List Char) (ms ms2 : List (List Char))
    (h : Markers ok s ms) (h2 : Markers ok s ms2) : ms = ms2 := by
  induction h generalizing ms2 with
  | done =>
    cases h2 with
    | done => rfl
    | found s n ms hm _ _ =>
      obtain ⟨inner, rest, -, -, hs, -⟩ := hm
      cases hs
  | skip x xs ms hno _ ih =>
    cases h2 with
    | skip _ _ _ _ h3 => exact ih _ h3
    | found s n ms hm _ _ => exact absurd hm (hno n)
  | found s n ms hm hmin _ ih =>
    cases h2 with
    | done =>
      obtain ⟨inner, rest, -, -, hs, -⟩ := hm
      cases hs
    | skip _ _ _ hno _ => exact absurd hm (hno n)
    | found _ n2 ms3 hm2 hmin2 h3 =>
      have hn : n = n2 := by
        rcases Nat.lt_trichotomy n n2 with hlt | heq | hgt
        · exact absurd hm (hmin2 n hlt)
        · exact heq
        · exact absurd hm2 (hmin n2 hgt)
      subst hn
      rw [ih _ h3]

/-! ## Lemmas on `Trim` -/

theorem trimRight_eq_rdropWhile (cut s : List Char) :
    trimRight cut s = s.rdropWhile (fun c => decide (c ∈ cut)) := rfl

/-- Trimming angle brackets off a delimited text trims its inner text. -/
theorem trim_delimited (inner : List Char) :
    trimLeft ['<', '>'] (trimRight ['<', '>'] ('<' :: '<' :: (inner ++ ['>', '>']))) =
      trimLeft ['<', '>'] (trimRight ['<', '>'] inner) := by
  have e : '<' :: '<' :: (inner ++ ['>', '>']) = (('<' :: '<' :: inner) ++ ['>']) ++ ['>'] := by
    simp
  rw [e, trimRight_eq_rdropWhile, List.rdropWhile_concat_pos _ _ _ (by decide),
    List.rdropWhile_concat_pos _ _ _ (by decide)]
  have e2 : ('<' :: '<' :: inner).reverse = inner.reverse ++ ['<', '<'] := by simp
  rw [trimRight_eq_rdropWhile]
  unfold List.rdropWhile
  rw [e2, List.dropWhile_append]
  split
  · rename_i hempty
    have : List.dropWhile (fun c => decide (c ∈ ['<', '>'])) inner.reverse = [] := by
      simpa using hempty
    rw [this]
    rfl
  · simp [trimLeft]

theorem length_trimLeft_le (cut s : List Char) : (trimLeft cut s).length ≤ s.length :=
  (List.dropWhile_sublist _).length_le

/-- Trimming changes nothing exactly when neither end is in the cutset. -/
theorem trim_eq_self_iff (cut l : List Char) :
    trimLeft cut (trimRight cut l) = l ↔
      ∀ c, (l.head? = some c ∨ l.getLast? = some c) → c ∉ cut := by
  constructor
  · intro h
    have hp : trimRight cut l <+: l := List.rdropWhile_prefix _ _
    have h1 : (trimRight cut l).length = l.length := by
      have := length_trimLeft_le cut (trimRight cut l)
      rw [h] at this
      exact Nat.le_antisymm hp.length_le this
    have hr : trimRight cut l = l := hp.eq_of_length h1
    rw [hr] at h
    intro c hc
    cases l with
    | nil => simp at hc
    | cons x xs =>
      rcases hc with hc | hc
      · simp only [List.head?_cons, Option.some.injEq] at hc
        subst hc
        intro hx
        simp [trimLeft, List.dropWhile_cons, hx] at h
        have := (List.dropWhile_sublist (fun c => decide (c ∈ cut)) (l := xs)).length_le
        rw [h] at this
        simp at this
      · rw [trimRight_eq_rdropWhile, List.rdropWhile_eq_self_iff] at hr
        have := hr (by simp)
        rw [List.getLast?_eq_getLast _ (by simp)] at hc
        simp only [Option.some.injEq] at hc
        rw [hc] at this
        simpa using this
  · intro h
    have hr : trimRight cut l = l := by
      rw [trimRight_eq_rdropWhile, List.rdropWhile_eq_self_iff]
      intro hl
      have := h (l.getLast hl) (Or.inr (List.getLast?_eq_getLast _ hl))
      simpa using this
    rw [hr]
    cases l with
    | nil => rfl
    | cons x xs =>
      have := h x (Or.inl rfl)
      simp [trimLeft, List.dropWhile_cons, this]

/-- Neither end of a trimmed text is in the cutset. -/
theorem trim_ends (cut s : List Char) (c : Char)
    (h : (trimLeft cut (trimRight cut s)).head? = some c ∨
      (trimLeft cut (trimRight cut s)).getLast? = some c) : c ∉ cut := by
  rcases h with h | h
  · have := List.head?_dropWhile_not (fun c => decide (c ∈ cut)) (trimRight cut s)
    rw [trimLeft] at h
    rw [h] at this
    simpa using this
  · have hne : trimLeft cut (trimRight cut s) ≠ [] := by
      intro e; rw [e] at h; cases h
    have hsuf : trimLeft cut (trimRight cut s) <:+ trimRight cut s :=
      List.dropWhile_suffix _
    have hne2 : trimRight cut s ≠ [] := hsuf.ne_nil hne
    have hlast := hsuf.getLast hne
    rw [List.getLast?_eq_getLast _ hne, Option.some.injEq] at h
    have h3 : (trimRight cut s).getLast hne2 = c := hlast.symm.trans h
    have h4 : ¬ decide ((trimRight cut s).getLast hne2 ∈ cut) = true :=
      List.rdropWhile_last_not (fun c => decide (c ∈ cut)) s hne2
    rw [h3] at h4
    simpa using h4

/-- A trimmed text is a contiguous part of the text. -/
theorem trim_contiguous (cut s : List Char) : trimLeft cut (trimRight cut s) <:+: s := by
  have h1 : trimLeft cut (trimRight cut s) <:+ trimRight cut s := List.dropWhile_suffix _
  have h2 : trimRight cut s <+: s := List.rdropWhile_prefix _ _
  obtain ⟨a, ha⟩ := h1
  obtain ⟨b, hb⟩ := h2
  exact ⟨a, b, by rw [ha, hb]⟩

/-! ## Lemmas on the driver -/

/-- The loop of the driver in closed form: it writes the entries of the
longest run of keys that resolve and format, calls the resolver for these keys
and for the next one, and completes iff that run is all the keys. -/
theorem mainLoop_eq (resolve : String → Outcome ResultType) (ms : List String)
    (i : Nat) (out : String) (calls : List String) :
    (mainLoop resolve i ms out calls).stdout =
      out ++ String.join
        (((ms.map (fun m => Trim m "<>")).takeWhile
          (fun k => (entryOf resolve k).isSome)).map
            (fun k => (entryOf resolve k).getD "" ++ "\n\n")) ∧
    (mainLoop resolve i ms out calls).calls =
      calls ++ (ms.map (fun m => Trim m "<>")).take
        (((ms.map (fun m => Trim m "<>")).takeWhile
          (fun k => (entryOf resolve k).isSome)).length + 1) ∧
    ((mainLoop resolve i ms out calls).exit = .completed ↔
      (ms.map (fun m => Trim m "<>")).takeWhile
        (fun k => (entryOf resolve k).isSome) = ms.map (fun m => Trim m "<>")) := by
  induction ms generalizing i out calls with
  | nil => simp [mainLoop, String.join]
  | cons m ms ih =>
    rw [mainLoop]
    simp only [List.map_cons]
    rcases hr : resolve (Trim m "<>") with r | err | msg
    · rcases hb : buildAsciidocBibligraphyItem (Trim m "<>") 0 r with _ | s
      · have he : entryOf resolve (Trim m "<>") = none := by
          rw [entryOf, hr]; exact hb
        have hb2 : buildAsciidocBibligraphyItem (Trim m "<>") (i : Int) r = none := hb
        simp [hb2, he, List.takeWhile_cons, String.join]
      · have he : entryOf resolve (Trim m "<>") = some s := by
          rw [entryOf, hr]; exact hb
        have hb2 : buildAsciidocBibligraphyItem (Trim m "<>") (i : Int) r = some s := hb
        obtain ⟨h1, h2, h3⟩ := ih (i + 1) (out ++ (s ++ "\n\n")) (calls ++ [Trim m "<>"])
        simp only [hb2, he, List.takeWhile_cons, Option.isSome_some, if_true, List.map_cons,
          Option.getD_some, join_cons, List.length_cons, List.take_succ_cons]
        refine ⟨?_, ?_, ?_⟩
        · rw [h1, String.append_assoc]
        · rw [h2]; simp
        · rw [h3]; simp
    · have he : entryOf resolve (Trim m "<>") = none := by rw [entryOf, hr]
      simp [he, List.takeWhile_cons, String.join]
    · have he : entryOf resolve (Trim m "<>") = none := by rw [entryOf, hr]
      simp [he, List.takeWhile_cons, String.join]

end AsciidocCite

namespace AsciidocCite

/-! ## The entry formatter: layout, author segment, year, failure, index -/

/-- C1: for a record whose first date-part group starts with a string year
`y`, the formatter returns exactly the header with the key twice, the author
segment, the quoted title, the year in parentheses with a period, then the
container title segment iff the container title is non-empty, then the DOI
segment iff the DOI is non-empty, and nothing else. -/
theorem build_layout (k : String) (i : Int) (r : ResultType) (y : String)
    (ys : List Scalar) (gs : List (List Scalar))
    (h : r.Issued.DateParts = (Scalar.str y :: ys) :: gs) :
    buildAsciidocBibligraphyItem k i r =
      some ("- [[[" ++ k ++ ", " ++ k ++ "]]] " ++ authorSegment r.Author ++
        ("\"" ++ r.Title ++ "\"") ++ (" (" ++ y ++ ").") ++
        (if r.ContainerTitle ≠ "" then " " ++ r.ContainerTitle ++ "." else "") ++
        (if r.DOI ≠ "" then " DOI: " ++ r.DOI ++ "." else "")) := by
  unfold buildAsciidocBibligraphyItem
  simp only [h, writeAuthors_eq, fmtS, len_pos_iff]
  by_cases hc : r.ContainerTitle = "" <;> by_cases hd : r.DOI = "" <;>
    simp [hc, hd]

/-- The two entries the specification gives as examples, obtained from the
layout theorem. -/
theorem build_layout_witness :
    buildAsciidocBibligraphyItem "smith2020" 0
        ⟨"", "A Study", "Journal X", [⟨"Smith", "J"⟩], ⟨[[.str "2020"]]⟩, "10.1/xyz"⟩ =
      some "- [[[smith2020, smith2020]]] J Smith. \"A Study\" (2020). Journal X. DOI: 10.1/xyz." ∧
    buildAsciidocBibligraphyItem "k" 0
        ⟨"", "Solo Work", "", [], ⟨[[.str "1999"]]⟩, ""⟩ =
      some "- [[[k, k]]] \"Solo Work\" (1999)." :=
  ⟨build_layout "smith2020" 0
      ⟨"", "A Study", "Journal X", [⟨"Smith", "J"⟩], ⟨[[.str "2020"]]⟩, "10.1/xyz"⟩
      "2020" [] [] rfl,
   build_layout "k" 0 ⟨"", "Solo Work", "", [], ⟨[[.str "1999"]]⟩, ""⟩ "1999" [] [] rfl⟩

/-- C2: the author loop of the formatter appends to the builder the author
segment of the specification: nothing for an empty author list, and for a
list ending in `a` each earlier author as given, space, family followed by
`" and "`, then `a` likewise followed by the only `". "`. -/
theorem author_segment (r : ResultType) (b : String) (front : List AuthorType)
    (a : AuthorType) :
    writeAuthors r.Author b = b ++ authorSegment r.Author ∧
    writeAuthors [] b = b ∧
    writeAuthors (front ++ [a]) b =
      b ++ (String.join (front.map (fun x => (x.Given ++ " " ++ x.Family) ++ " and ")) ++
        ((a.Given ++ " " ++ a.Family) ++ ". ")) := by
  refine ⟨writeAuthors_eq _ _, rfl, ?_⟩
  rw [writeAuthors_eq]
  have hne : front ++ [a] ≠ [] := by simp
  have hseg : authorSegment (front ++ [a]) =
      " and ".intercalate ((front ++ [a]).map authorName) ++ ". " := by
    cases front <;> rfl
  rw [hseg, List.map_append, List.map_singleton, intercalate_append_singleton,
    List.map_map, String.append_assoc]
  rfl

/-- C3: a numeric year is not written verbatim.  The year `1999` (resp.
`2020`) held as a decoded JSON number is written as `%!s(float64=1999)`
(resp. `%!s(float64=2020)`), whereas the same year held as a string is
written as `1999` (resp. `2020`). -/
theorem numeric_year_rendering :
    buildAsciidocBibligraphyItem "k" 0
        ⟨"", "Solo Work", "", [], ⟨[[.number 1999]]⟩, ""⟩ =
      some "- [[[k, k]]] \"Solo Work\" (%!s(float64=1999))." ∧
    buildAsciidocBibligraphyItem "k" 0
        ⟨"", "Solo Work", "", [], ⟨[[.str "1999"]]⟩, ""⟩ =
      some "- [[[k, k]]] \"Solo Work\" (1999)." ∧
    buildAsciidocBibligraphyItem "smith2020" 0
        ⟨"", "A Study", "Journal X", [⟨"Smith", "J"⟩], ⟨[[.number 2020]]⟩, "10.1/xyz"⟩ =
      some ("- [[[smith2020, smith2020]]] J Smith. \"A Study\" (%!s(float64=2020))." ++
        " Journal X. DOI: 10.1/xyz.") := by
  decide

/-- C4: the formatter fails exactly when the date-parts list is empty or its
first group is empty; whenever the first group has an element it returns a
string, whatever the other fields are. -/
theorem build_fails_iff (k : String) (i : Int) (r : ResultType) :
    (buildAsciidocBibligraphyItem k i r = none ↔
      (r.Issued.DateParts = [] ∨ ∃ gs, r.Issued.DateParts = [] :: gs)) ∧
    ((∃ s, buildAsciidocBibligraphyItem k i r = some s) ↔
      ∃ y ys gs, r.Issued.DateParts = (y :: ys) :: gs) := by
  unfold buildAsciidocBibligraphyItem
  rcases hd : r.Issued.DateParts with _ | ⟨g, gs⟩
  · simp
  · rcases g with _ | ⟨y, ys⟩
    · simp
    · simp

/-- C10: the index argument does not influence the result of the formatter:
for all indices the calls fail together or return the same string. -/
theorem build_index_irrelevant (k : String) (r : ResultType) (i j : Int) :
    buildAsciidocBibligraphyItem k i r = buildAsciidocBibligraphyItem k j r :=
  rfl

/-! ## The extractor and the driver -/

/-- C5: the matches the driver iterates over after sorting are a permutation
of the matches found in the text, every match occurring as many times as it
was found, and they are in non-decreasing lexicographic order of the
delimited text; the text `see <<b>> and <<a>>` yields the keys `a`, `b`. -/
theorem citekeys_sorted_perm (content : String) :
    (citekeys content).Perm (FindAll re content) ∧
    (∀ m, (citekeys content).count m = (FindAll re content).count m) ∧
    List.Sorted (· ≤ ·) (citekeys content) ∧
    FindAll re "see <<b>> and <<a>>" = ["<<b>>", "<<a>>"] ∧
    keysOf "see <<b>> and <<a>>" = ["a", "b"] := by
  refine ⟨sortSlice_perm _, fun m => (sortSlice_perm _).count_eq m, sortSlice_sorted _, ?_, ?_⟩
  · decide
  · decide

/-- C6, as the claim states it, fails: the match `<<<a>>` of the text
`<<<a>>` gives the key `a`, whereas the match without its first two and last
two characters is `<a`. -/
theorem trim_removes_more :
    FindAll re "<<<a>>" = ["<<<a>>"] ∧
    Trim "<<<a>>" "<>" = "a" ∧
    stripDelimiters "<<<a>>" = "<a" ∧
    ¬ (∀ content m, m ∈ FindAll re content → Trim m "<>" = stripDelimiters m) := by
  refine ⟨by decide, by decide, by decide, fun h => ?_⟩
  have := h "<<<a>>" "<<<a>>" (by decide)
  revert this
  decide

/-- C6, amended: every match is `<<`, a non-empty inner text, `>>`; the key
derived from it is the inner text with every leading and trailing `<` and `>`
of the inner text removed too, and it is the inner text itself exactly when
the inner text neither begins nor ends with `<` or `>`. -/
theorem key_of_match (content m : String) (h : m ∈ FindAll re content) :
    stripDelimiters m ≠ "" ∧
    m = "<<" ++ stripDelimiters m ++ ">>" ∧
    Trim m "<>" = Trim (stripDelimiters m) "<>" ∧
    (Trim m "<>" = stripDelimiters m ↔
      ∀ c, ((stripDelimiters m).data.head? = some c ∨
        (stripDelimiters m).data.getLast? = some c) → c ≠ '<' ∧ c ≠ '>') := by
  obtain ⟨inner, hne, hm⟩ := mem_FindAll_re content m h
  have hs : stripDelimiters m = String.mk inner := by
    simp [stripDelimiters, hm]
  have hcut : "<>".data = ['<', '>'] := rfl
  have ht : Trim m "<>" = Trim (stripDelimiters m) "<>" := by
    simp only [Trim, hs, hm, hcut, trim_delimited]
  refine ⟨?_, ?_, ht, ?_⟩
  · rw [hs]
    intro e
    exact hne (congrArg String.data e)
  · apply String.ext
    rw [hs, String.data_append, String.data_append, hm]
    simp
  · rw [ht, hs]
    constructor
    · intro e c hc
      have e2 := congrArg String.data e
      simp only [Trim, hcut] at e2
      have := (trim_eq_self_iff _ _).1 e2 c hc
      simpa using this
    · intro hc
      simp only [Trim, hcut]
      congr 1
      refine (trim_eq_self_iff _ _).2 (fun c h1 => ?_)
      have := hc c h1
      simpa using this

/-- The match `<<smith2020>>` of a text gives the key `smith2020`. -/
theorem key_of_match_witness :
    "<<smith2020>>" ∈ FindAll re "see <<smith2020>>." ∧
    (stripDelimiters "<<smith2020>>" ≠ "" ∧
      "<<smith2020>>" = "<<" ++ stripDelimiters "<<smith2020>>" ++ ">>" ∧
      Trim "<<smith2020>>" "<>" = Trim (stripDelimiters "<<smith2020>>") "<>" ∧
      (Trim "<<smith2020>>" "<>" = stripDelimiters "<<smith2020>>" ↔
        ∀ c, ((stripDelimiters "<<smith2020>>").data.head? = some c ∨
          (stripDelimiters "<<smith2020>>").data.getLast? = some c) → c ≠ '<' ∧ c ≠ '>')) :=
  ⟨by decide, key_of_match "see <<smith2020>>." "<<smith2020>>" (by decide)⟩

/-- C7, as the claim states it, fails: on the text `<<a>> <<b>>`, with a
resolver that fails for no key and returns for `a` a record without
date-parts and for `b` a record that formats, nothing is written, the resolver
is called for `a` only and the run ends in the panic of the formatter; the
claim has the entry of `b` written and the run completed. -/
theorem format_failure_aborts :
    keysOf "<<a>> <<b>>" = ["a", "b"] ∧
    buildAsciidocBibligraphyItem "b" 1 ⟨"", "T", "", [], ⟨[[.str "2001"]]⟩, ""⟩ =
      some "- [[[b, b]]] \"T\" (2001)." ∧
    main (.ok "<<a>> <<b>>")
        (fun k => if k = "a" then .ok ⟨"", "T", "", [], ⟨[]⟩, ""⟩
          else .ok ⟨"", "T", "", [], ⟨[[.str "2001"]]⟩, ""⟩) =
      ⟨"", ["a"], .panic⟩ := by
  decide

/-- C7, amended: the standard output of a run is the concatenation, in
sorted-marker order, of the entry followed by a blank line for the keys that
precede the first key whose resolution or formatting fails (all keys if none
fails); the resolver is called for these keys and for that first failing key
and for no other; the run completes normally iff no key fails; a text without
markers makes no call, writes nothing and completes normally. -/
theorem driver_output (content : String) (resolve : String → Outcome ResultType) :
    (main (.ok content) resolve).stdout =
      String.join (((keysOf content).takeWhile (fun k => (entryOf resolve k).isSome)).map
        (fun k => (entryOf resolve k).getD "" ++ "\n\n")) ∧
    (main (.ok content) resolve).calls =
      (keysOf content).take
        (((keysOf content).takeWhile (fun k => (entryOf resolve k).isSome)).length + 1) ∧
    ((main (.ok content) resolve).exit = .completed ↔
      (keysOf content).takeWhile (fun k => (entryOf resolve k).isSome) = keysOf content) ∧
    (FindAll re content = [] → main (.ok content) resolve = ⟨"", [], .completed⟩) := by
  obtain ⟨h1, h2, h3⟩ := mainLoop_eq resolve (citekeys content) 0 "" []
  refine ⟨?_, ?_, h3, ?_⟩
  · rw [main, h1]; simp [keysOf]
  · rw [main, h2]; simp [keysOf]
  · intro h
    simp [main, citekeys, h, sortSlice, mainLoop]

/-- A run on the text `see <<b>> and <<a>>` where `a` resolves and `b` does
not, and a run on a text without markers. -/
theorem driver_output_witness :
    main (.ok "see <<b>> and <<a>>")
        (fun k => if k = "a" then
          .ok ⟨"", "A Study", "Journal X", [⟨"Smith", "J"⟩], ⟨[[.str "2020"]]⟩, "10.1/xyz"⟩
          else .fatal "There were no results to the query") =
      ⟨"- [[[a, a]]] J Smith. \"A Study\" (2020). Journal X. DOI: 10.1/xyz.\n\n",
        ["a", "b"], .fatal "There were no results to the query"⟩ ∧
    FindAll re "no markers" = [] ∧
    main (.ok "no markers") (fun _ => .fatal "unused") = ⟨"", [], .completed⟩ :=
  ⟨by decide, by decide,
    (driver_output "no markers" (fun _ => .fatal "unused")).2.2.2 (by decide)⟩

/-! ## The resolver -/

/-- C8: when the round trip, the reading of the body and the decoding succeed,
the resolver returns the first element of the `result` list of the reply when
the list is non-empty, and otherwise (an empty list, or the nil slice of an
absent or null field) returns no record and ends the process. -/
theorem resolver_first_result (svc : Service) (citekey resp body : String)
    (reply : ZoteroReply) (hDo : svc.Do (formattedRequest citekey) = .ok resp)
    (hRead : svc.ReadAll resp = .ok body) (hDec : svc.Unmarshal body = .ok reply) :
    getBibliographyFromCitekey svc citekey =
      (match reply.Result.getD [] with
        | r :: _ => .ok r
        | [] => .fatal "There were no results to the query") ∧
    (reply.Result = none ∨ reply.Result = some [] →
      ∀ r, getBibliographyFromCitekey svc citekey ≠ .ok r) := by
  have h : getBibliographyFromCitekey svc citekey = firstResult reply := by
    simp [getBibliographyFromCitekey, hDo, hRead, hDec]
  rw [h]
  rcases reply with ⟨rpc, _ | _ | ⟨r, rs⟩⟩
  · exact ⟨rfl, fun _ r => by simp [firstResult]⟩
  · exact ⟨rfl, fun _ r => by simp [firstResult]⟩
  · refine ⟨rfl, fun h => ?_⟩
    simp at h

/-- A reply with two candidates resolves to the first; a reply without a
`result` field ends the process. -/
theorem resolver_first_result_witness :
    getBibliographyFromCitekey
        ⟨fun _ => .ok "resp", fun _ => .ok "body", fun _ =>
          .ok ⟨"2.0", some [⟨"", "First", "", [], ⟨[]⟩, ""⟩, ⟨"", "Second", "", [], ⟨[]⟩, ""⟩]⟩⟩
        "k" = .ok ⟨"", "First", "", [], ⟨[]⟩, ""⟩ ∧
    getBibliographyFromCitekey
        ⟨fun _ => .ok "resp", fun _ => .ok "body", fun _ => .ok ⟨"2.0", none⟩⟩ "k" =
      .fatal "There were no results to the query" :=
  ⟨(resolver_first_result
      ⟨fun _ => .ok "resp", fun _ => .ok "body", fun _ =>
        .ok ⟨"2.0", some [⟨"", "First", "", [], ⟨[]⟩, ""⟩, ⟨"", "Second", "", [], ⟨[]⟩, ""⟩]⟩⟩
      "k" "resp" "body" _ rfl rfl rfl).1,
   (resolver_first_result
      ⟨fun _ => .ok "resp", fun _ => .ok "body", fun _ => .ok ⟨"2.0", none⟩⟩
      "k" "resp" "body" _ rfl rfl rfl).1⟩

/-- C9: the request body is not well-formed JSON for every key the driver can
pass.  The texts `<<a"b>>` and `<<a\>>` give the keys `a"b` and `a\`, which
are copied into the body unescaped: for both the body is no JSON text,
whatever the fuel of the parser; for the key `smith2020` the body denotes the
request of the specification. -/
theorem request_body_unescaped :
    keysOf "<<a\"b>>" = ["a\"b"] ∧
    formattedRequest "a\"b" =
      "\x7b\"jsonrpc\": \"2.0\", \"method\": \"item.search\", \"params\": [\"a\"b\"] \x7d" ∧
    (∀ fuel, parseWith fuel (formattedRequest "a\"b") = none) ∧
    keysOf "<<a\\>>" = ["a\\"] ∧
    formattedRequest "a\\" =
      "\x7b\"jsonrpc\": \"2.0\", \"method\": \"item.search\", \"params\": [\"a\\\"] \x7d" ∧
    (∀ fuel, parseWith fuel (formattedRequest "a\\") = none) ∧
    parseJSON (formattedRequest "smith2020") = some (requestFor "smith2020") := by
  refine ⟨by decide, by decide, fun fuel => ?_, by decide, by decide, fun fuel => ?_, rfl⟩
  · rcases fuel with _ | _ | _ | _ | _ | _ | _ | _ | fuel <;> rfl
  · rcases fuel with _ | _ | _ | _ | _ | _ | _ | _ | fuel <;> rfl

end AsciidocCite

namespace AsciidocCite

/-! ## The markers and the keys -/

/-- C11, as the claim states it, fails: the text `<<a`, line feed, `b>>` is
`<<`, three characters, `>>`, yet the extractor finds no match in it, so that
its matches are not the markers with arbitrary inner characters. -/
theorem line_break_not_matched :
    FindAll re "<<a\nb>>" = [] ∧
    MarkerAt anyChar "<<a\nb>>".data 7 ∧
    ¬ Markers anyChar "<<a\nb>>".data ((FindAll re "<<a\nb>>").map String.data) := by
  have hm : MarkerAt anyChar "<<a\nb>>".data 7 :=
    ⟨['a', '\n', 'b'], [], by simp, fun _ _ => trivial, rfl, rfl⟩
  have hf : FindAll re "<<a\nb>>" = [] := by decide
  refine ⟨hf, hm, ?_⟩
  rw [hf]
  intro h
  have h2 : Markers anyChar ['<', '<', 'a', '\n', 'b', '>', '>'] [] := h
  cases h2 with
  | skip _ _ _ hno _ => exact hno 7 hm

/-- C11, amended: the matches found by the extractor are exactly the leftmost,
non-overlapping, shortest substrings of the form `<<`, one or more characters
other than a line feed, `>>`, scanning left to right; a line feed between the
delimiters ends the attempt, as in the text `<<a`, line feed, `<<b>>` whose
only match is `<<b>>`. -/
theorem extractor_markers (content : String) :
    Markers notLineFeed content.data ((FindAll re content).map String.data) ∧
    (∀ ms, Markers notLineFeed content.data ms ↔
      ms = (FindAll re content).map String.data) ∧
    FindAll re "<<a\n<<b>>" = ["<<b>>"] := by
  have e : (FindAll re content).map String.data = findAllFrom re 0 content.data := by
    simp [FindAll, List.map_map, Function.comp_def]
  rw [e]
  refine ⟨markers_findAllFrom _, fun ms => ⟨fun h => ?_, fun h => ?_⟩, by decide⟩
  · exact markers_unique _ _ _ _ h (markers_findAllFrom _)
  · rw [h]; exact markers_findAllFrom _

/-- C12: the driver passes an empty key to the resolver.  The texts `<<>>>`
and `<<<>>` are matches as a whole, their inner text being an angle bracket,
and trimming the angle brackets leaves the empty key, for which the resolver
is called. -/
theorem empty_key_passed :
    FindAll re "<<>>>" = ["<<>>>"] ∧ keysOf "<<>>>" = [""] ∧
    FindAll re "<<<>>" = ["<<<>>"] ∧ keysOf "<<<>>" = [""] ∧
    (main (.ok "<<>>>") (fun _ => .fatal "There were no results to the query")).calls =
      [""] := by
  decide

/-- C13: no key the driver derives begins or ends with `<` or `>`, and every
key is a contiguous part of the match it is derived from, which is a
contiguous part of the document. -/
theorem key_ends_and_substring (content k : String) (h : k ∈ keysOf content) :
    (∀ c, (k.data.head? = some c ∨ k.data.getLast? = some c) → c ≠ '<' ∧ c ≠ '>') ∧
    ∃ m, m ∈ FindAll re content ∧ k = Trim m "<>" ∧
      k.data <:+: m.data ∧ m.data <:+: content.data ∧ k.data <:+: content.data := by
  obtain ⟨m, hm, rfl⟩ := List.mem_map.1 h
  have hm2 : m ∈ FindAll re content := (sortSlice_perm _).mem_iff.1 hm
  have hcut : "<>".data = ['<', '>'] := rfl
  have hk : (Trim m "<>").data <:+: m.data := by
    simp only [Trim, hcut]
    exact trim_contiguous _ _
  have hd : m.data <:+: content.data := by
    obtain ⟨l, hl, rfl⟩ := List.mem_map.1 hm2
    exact findAllFrom_contiguous _ _ _ _ hl
  refine ⟨fun c hc => ?_, m, hm2, rfl, hk, hd, hk.trans hd⟩
  have := trim_ends ['<', '>'] m.data c hc
  simpa using this

/-- The key `a` of the text `see <<b>> and <<a>>`. -/
theorem key_ends_and_substring_witness :
    "a" ∈ keysOf "see <<b>> and <<a>>" ∧
    ((∀ c, ("a".data.head? = some c ∨ "a".data.getLast? = some c) → c ≠ '<' ∧ c ≠ '>') ∧
      ∃ m, m ∈ FindAll re "see <<b>> and <<a>>" ∧ "a" = Trim m "<>" ∧
        "a".data <:+: m.data ∧ m.data <:+: "see <<b>> and <<a>>".data ∧
        "a".data <:+: "see <<b>> and <<a>>".data) :=
  ⟨by decide, key_ends_and_substring "see <<b>> and <<a>>" "a" (by decide)⟩

end AsciidocCite
